import Mathlib

/-!
Verification development for the quantum tic-tac-toe environment
(`3-QuantumTicTacToe/qttt.py`).  The Python class `QTicTacToeEnv` is
shallowly embedded: the board classifier (`_win_check`,
`_init_outcomes_dict`, `_init_moves_dict`) becomes executable list
functions, the engine bookkeeping (`__init__`, `move`) becomes explicit
state passing, and the qiskit statevector simulation becomes dense
amplitude vectors `Fin (2^n) → ℂ` with tensor-embedded gate actions.
-/

namespace QTTT

/-- The three gate kinds used in the move table: `HGate`, `XGate`, `CXGate`. -/
inductive Gate where
  | H : Gate
  | X : Gate
  | CX : Gate
deriving DecidableEq, Repr

/-- Fuel-driven helper for binary digits, most significant bit first.
`natBitsAux fuel x` equals the digit list of `x` whenever `x ≤ fuel`. -/
def natBitsAux : ℕ → ℕ → List Bool
  | 0, _ => []
  | fuel + 1, x =>
    if x = 0 then [] else natBitsAux fuel (x / 2) ++ [decide (x % 2 = 1)]

/-- Binary digits of `x`, most significant first; `[]` for `0`. -/
def natBits (x : ℕ) : List Bool := natBitsAux x x

/-- Python `bin(x)[2:]` as a list of bits: minimal binary representation,
except that `0` is rendered as the single digit `0`. -/
def pyBin (x : ℕ) : List Bool := if x = 0 then [false] else natBits x

/-- Python `str.zfill(d)`: left-pad with `0` digits up to length `d`. -/
def zfill (d : ℕ) (l : List Bool) : List Bool :=
  List.replicate (d - l.length) false ++ l

/-- The board string for classical index `x`: `bin(x)[2:].zfill(qnum)`. -/
def boardOf (qnum x : ℕ) : List Bool := zfill qnum (pyBin x)

/-- `rows = [board[i*d:(i+1)*d] for i in range(d)]`. -/
def rowsOf (d : ℕ) (board : List Bool) : List (List Bool) :=
  (List.range d).map (fun i => (board.drop (i * d)).take d)

/-- `cols = ["".join([rows[i][j] for i in range(d)]) for j in range(d)]`.
Indexing is total with default `false`; every call site indexes in range. -/
def colsOf (d : ℕ) (board : List Bool) : List (List Bool) :=
  (List.range d).map (fun j => (rowsOf d board).map (fun r => r.getD j false))

/-- First diagonal `"".join([rows[i][i] for i in range(d)])`. -/
def diag1Of (d : ℕ) (board : List Bool) : List Bool :=
  (List.range d).map (fun i => ((rowsOf d board).getD i []).getD i false)

/-- Second diagonal `"".join([rows[i][d-i-1] for i in range(d)])`. -/
def diag2Of (d : ℕ) (board : List Bool) : List Bool :=
  (List.range d).map (fun i => ((rowsOf d board).getD i []).getD (d - i - 1) false)

/-- The line list scanned by `_win_check`: `[*rows, *cols, *diags]`. -/
def linesOf (d : ℕ) (board : List Bool) : List (List Bool) :=
  rowsOf d board ++ colsOf d board ++ [diag1Of d board, diag2Of d board]

/-- `cond_1 = bin(0)[2:].zfill(d)`, the all-zero line pattern. -/
def cond1Of (d : ℕ) : List Bool := zfill d (pyBin 0)

/-- `cond_2 = bin(2**d - 1)[2:].zfill(d)`, the all-one line pattern. -/
def cond2Of (d : ℕ) : List Bool := zfill d (pyBin (2 ^ d - 1))

/-- `int(np.sqrt(n))`: the integer part of the square root, computed
executably as the number of `r ∈ [1, n]` with `r * r ≤ n`. -/
def isqrt (n : ℕ) : ℕ :=
  ((List.range n).map (fun r => r + 1)).countP (fun r => r * r ≤ n)

/-- The scanning loop of `_win_check`: fold over the lines carrying the
current `winner`, with the early `return 0` when both players have a line. -/
def winLoop (c1 c2 : List Bool) : ℕ → List (List Bool) → ℕ
  | winner, [] => winner
  | winner, line :: rest =>
    if line = c1 then
      if winner = 0 ∨ winner = 1 then winLoop c1 c2 1 rest
      else if winner = 2 then 0
      else winLoop c1 c2 winner rest
    else if line = c2 then
      if winner = 0 ∨ winner = 2 then winLoop c1 c2 2 rest
      else if winner = 1 then 0
      else winLoop c1 c2 winner rest
    else winLoop c1 c2 winner rest

/-- `_win_check(board)`: winning player (1 or 2) or draw flag (0).
`d = int(np.sqrt(self.qnum))`. -/
def winCheck (qnum : ℕ) (board : List Bool) : ℕ :=
  let d := isqrt qnum
  winLoop (cond1Of d) (cond2Of d) 0 (linesOf d board)

/-- The per-label content of `_init_outcomes_dict`: the classical indices
(in increasing order, as the Python loop appends them) whose board string
is classified `w` by `_win_check`. -/
def endingsList (qnum w : ℕ) : List ℕ :=
  (List.range (2 ^ qnum)).filter (fun x => winCheck qnum (boardOf qnum x) = w)

/-- `itertools.permutations(range(n), 2)`: all ordered pairs of distinct
elements, in lexicographic order. -/
def permPairs (n : ℕ) : List (ℕ × ℕ) :=
  (List.range n).flatMap (fun c => ((List.range n).filter (fun t => t ≠ c)).map (fun t => (c, t)))

/-- The values of `_init_moves_dict`, in key order: `H` then `X` on each
qubit, then `CX` on each ordered pair of distinct qubits. -/
def movesList (n : ℕ) : List (List ℕ × Gate) :=
  ((List.range n).flatMap (fun q => [([q], Gate.H), ([q], Gate.X)]))
    ++ (permPairs n).map (fun p => ([p.1, p.2], Gate.CX))

/-- `_init_moves_dict` as an association list; the dict keys `mv_indx`
count up from 0, so they are the positions in `movesList`. -/
def movesDict (n : ℕ) : List (ℕ × (List ℕ × Gate)) := (movesList n).enum

/-- The mutable fields of `QTicTacToeEnv` relevant to the engine:
the gate list of `self.circuit`, the move log `self.status_id`
(modelled as the list of logged action ids), and `self.qnum`. -/
structure EngineState where
  circuit : List (List ℕ × Gate)
  statusId : List ℕ
  qnum : ℕ
deriving DecidableEq, Repr

/-- `QTicTacToeEnv.__init__(grid_size)`: `qnum = grid_size ** 2`, an empty
circuit, and an empty move log.  The source performs no validation of
`grid_size`. -/
def qtttInit (grid_size : ℤ) : EngineState :=
  { circuit := [], statusId := [], qnum := (grid_size * grid_size).toNat }

/-- `QTicTacToeEnv.move(action)`: the move log is extended first, then the
dictionary lookup `self.moves[action]` happens; an unknown key raises
(`Except.error`), leaving the already-extended log in place and the
circuit untouched. -/
def move (st : EngineState) (action : ℕ) : Except EngineState EngineState :=
  let st1 : EngineState := { st with statusId := st.statusId ++ [action] }
  match (movesList st.qnum).get? action with
  | some m => Except.ok { st1 with circuit := st1.circuit ++ [m] }
  | none => Except.error st1

/-! ### Statevector simulation

The qiskit statevector of the board circuit, shallowly embedded: a dense
amplitude vector indexed by classical basis states, where bit `q` of the
index is qubit `q`'s value (qiskit's little-endian convention). -/

/-- Amplitude vector of an `n`-qubit register. -/
abbrev QVec (n : ℕ) := Fin (2 ^ n) → ℂ

/-- The statevector of a freshly constructed circuit with no gates:
the all-zero basis state. -/
def initState (n : ℕ) : QVec n := fun i => if i = 0 then 1 else 0

/-- The Hadamard scalar `1/√2`. -/
noncomputable def hscale : ℂ := ((Real.sqrt 2)⁻¹ : ℝ)

/-- Flip bit `k` of a basis index. -/
def flipFin {n : ℕ} (k : Fin n) (i : Fin (2 ^ n)) : Fin (2 ^ n) :=
  ⟨i.val ^^^ 2 ^ k.val,
    Nat.xor_lt_two_pow i.isLt (Nat.pow_lt_pow_right one_lt_two k.isLt)⟩

/-- `HGate` on qubit `k`: each pair of indices differing in bit `k` is
sent through the matrix `(1/√2) [[1,1],[1,-1]]`. -/
noncomputable def applyH {n : ℕ} (k : Fin n) (v : QVec n) : QVec n := fun i =>
  if (i : ℕ).testBit k.val = false then (v i + v (flipFin k i)) * hscale
  else (v (flipFin k i) - v i) * hscale

/-- `XGate` on qubit `k`: permutes amplitudes by flipping bit `k`. -/
def applyX {n : ℕ} (k : Fin n) (v : QVec n) : QVec n := fun i =>
  v (flipFin k i)

/-- `CXGate` with control `c` and target `t`: flips bit `t` of the index
whenever bit `c` is set. -/
def applyCX {n : ℕ} (c t : Fin n) (v : QVec n) : QVec n := fun i =>
  if (i : ℕ).testBit c.val then v (flipFin t i) else v i

/-- Apply one move-table entry to the statevector.  Entries whose qubit
indices are out of range (which the move table never produces) act as the
identity. -/
noncomputable def applyMove (n : ℕ) (m : List ℕ × Gate) (v : QVec n) : QVec n :=
  match m with
  | ([q], Gate.H) => if h : q < n then applyH ⟨q, h⟩ v else v
  | ([q], Gate.X) => if h : q < n then applyX ⟨q, h⟩ v else v
  | ([c, t], Gate.CX) =>
    if h : c < n ∧ t < n then applyCX ⟨c, h.1⟩ ⟨t, h.2⟩ v else v
  | _ => v

/-- Run a gate list (a circuit) on a statevector, first gate first. -/
noncomputable def runMoves (n : ℕ) (ms : List (List ℕ × Gate)) (v : QVec n) : QVec n :=
  ms.foldl (fun w m => applyMove n m w) v

/-- The exact statevector of the engine's circuit, as simulated from the
all-zero initial state (`_get_statevec` before its rounding step). -/
noncomputable def statevecOf (st : EngineState) : QVec st.qnum :=
  runMoves st.qnum st.circuit (initState st.qnum)

/-- `QTicTacToeEnv.reset()`: a fresh circuit with `h` on every qubit and
an empty move log. -/
def resetEngine (st : EngineState) : EngineState :=
  { st with circuit := (List.range st.qnum).map (fun q => ([q], Gate.H)),
            statusId := [] }

/-- The statevector right after `reset`: `H` applied to every qubit of the
all-zero state. -/
noncomputable def resetState (n : ℕ) : QVec n :=
  runMoves n ((List.range n).map (fun q => ([q], Gate.H))) (initState n)

/-- `np.around(z, decimals=2)` on one complex amplitude: round the real
and imaginary parts to two decimal places.  (Mathlib's `round` resolves
half-integer ties upward while numpy rounds them to even; no value in the
statements below is a tie.) -/
noncomputable def roundC (z : ℂ) : ℂ :=
  ((round (z.re * 100) : ℤ) : ℝ) / 100 + (((round (z.im * 100) : ℤ) : ℝ) / 100) * Complex.I

/-- The vector actually returned by `_get_statevec`: the exact statevector
rounded to two decimals componentwise. -/
noncomputable def getStatevec (st : EngineState) : QVec st.qnum := fun i =>
  roundC (statevecOf st i)

/-- Sum of squared magnitudes of an amplitude vector. -/
def stateNorm {n : ℕ} (v : QVec n) : ℝ :=
  ∑ i, Complex.normSq (v i)

/-! ### Bit-arithmetic helpers -/

lemma lt_of_testBit_false {y m : ℕ} (h1 : y < 2 ^ (m + 1)) (h2 : y.testBit m = false) :
    y < 2 ^ m := by
  apply Nat.lt_pow_two_of_testBit
  intro i hi
  rcases Nat.eq_or_lt_of_le hi with h | h
  · exact h ▸ h2
  · exact Nat.testBit_lt_two_pow (lt_of_lt_of_le h1 (Nat.pow_le_pow_right (by omega) h))

lemma testBit_true_of_range {y m : ℕ} (h1 : 2 ^ m ≤ y) (h2 : y < 2 ^ (m + 1)) :
    y.testBit m = true := by
  by_contra h
  have := lt_of_testBit_false h2 (Bool.eq_false_iff.mpr h)
  omega

lemma xor_two_pow_high {i m : ℕ} (h : 2 ^ (m + 1) ≤ i) : 2 ^ (m + 1) ≤ i ^^^ 2 ^ m := by
  by_contra h'
  push_neg at h'
  have hp : (2 : ℕ) ^ m < 2 ^ (m + 1) := Nat.pow_lt_pow_right one_lt_two (by omega)
  have : i < 2 ^ (m + 1) := by
    have := Nat.xor_lt_two_pow h' hp
    rwa [Nat.xor_cancel_right] at this
  omega

lemma flipFin_val {n : ℕ} (k : Fin n) (i : Fin (2 ^ n)) :
    (flipFin k i : ℕ) = (i : ℕ) ^^^ 2 ^ k.val := rfl

lemma flipFin_involutive {n : ℕ} (k : Fin n) : Function.Involutive (flipFin k) := by
  intro i
  apply Fin.ext
  simp [flipFin, Nat.xor_cancel_right]

lemma testBit_flipFin_self {n : ℕ} (k : Fin n) (i : Fin (2 ^ n)) :
    (flipFin k i : ℕ).testBit k.val = !(i : ℕ).testBit k.val := by
  simp [flipFin, Nat.testBit_xor, Nat.testBit_two_pow_self]

lemma testBit_flipFin_ne {n : ℕ} (k : Fin n) (i : Fin (2 ^ n)) {j : ℕ} (hj : k.val ≠ j) :
    (flipFin k i : ℕ).testBit j = (i : ℕ).testBit j := by
  simp [flipFin, Nat.testBit_xor, Nat.testBit_two_pow_of_ne hj]

/-! ### The `_win_check` scanning loop -/

lemma winLoop_mem (c1 c2 : List Bool) (L : List (List Bool)) :
    ∀ w, w = 0 ∨ w = 1 ∨ w = 2 →
      winLoop c1 c2 w L = 0 ∨ winLoop c1 c2 w L = 1 ∨ winLoop c1 c2 w L = 2 := by
  induction L with
  | nil => intro w hw; simpa [winLoop] using hw
  | cons line rest ih =>
    intro w hw
    simp only [winLoop]
    split_ifs with h1 h2 h3 h4 h5 h6
    · exact ih 1 (by tauto)
    · tauto
    · exact ih w hw
    · exact ih 2 (by tauto)
    · tauto
    · exact ih w hw
    · exact ih w hw

lemma winLoop_one_of_c2 {c1 c2 : List Bool} (hne : c1 ≠ c2) {L : List (List Bool)}
    (hmem : c2 ∈ L) : winLoop c1 c2 1 L = 0 := by
  induction L with
  | nil => cases hmem
  | cons line rest ih =>
    rcases List.mem_cons.mp hmem with h | h
    · rw [← h]
      simp [winLoop, Ne.symm hne]
    · by_cases hl1 : line = c1
      · simp [winLoop, hl1, ih h]
      · by_cases hl2 : line = c2
        · simp [winLoop, hl2, Ne.symm hne]
        · simp [winLoop, hl1, hl2, ih h]

lemma winLoop_two_of_c1 {c1 c2 : List Bool} {L : List (List Bool)}
    (hmem : c1 ∈ L) : winLoop c1 c2 2 L = 0 := by
  induction L with
  | nil => cases hmem
  | cons line rest ih =>
    rcases List.mem_cons.mp hmem with h | h
    · rw [← h]
      simp [winLoop]
    · by_cases hl1 : line = c1
      · simp [winLoop, hl1]
      · by_cases hl2 : line = c2
        · simp [winLoop, hl1, hl2, ih h]
        · simp [winLoop, hl1, hl2, ih h]

lemma winLoop_zero_of_both {c1 c2 : List Bool} (hne : c1 ≠ c2) {L : List (List Bool)}
    (h1 : c1 ∈ L) (h2 : c2 ∈ L) : winLoop c1 c2 0 L = 0 := by
  induction L with
  | nil => cases h1
  | cons line rest ih =>
    by_cases hl1 : line = c1
    · have hr2 : c2 ∈ rest := by
        rcases List.mem_cons.mp h2 with h | h
        · exact absurd (hl1 ▸ h.symm) hne
        · exact h
      simp [winLoop, hl1, winLoop_one_of_c2 hne hr2]
    · by_cases hl2 : line = c2
      · have hr1 : c1 ∈ rest := by
          rcases List.mem_cons.mp h1 with h | h
          · exact absurd h.symm hl1
          · exact h
        simp [winLoop, hl2, Ne.symm hne, winLoop_two_of_c1 hr1]
      · have hr1 : c1 ∈ rest := by
          rcases List.mem_cons.mp h1 with h | h
          · exact absurd h.symm hl1
          · exact h
        have hr2 : c2 ∈ rest := by
          rcases List.mem_cons.mp h2 with h | h
          · exact absurd h.symm hl2
          · exact h
        simp [winLoop, hl1, hl2, ih hr1 hr2]

lemma winLoop_one_of_all {c1 c2 : List Bool} {L : List (List Bool)}
    (hall : ∀ l ∈ L, l = c1) : winLoop c1 c2 1 L = 1 := by
  induction L with
  | nil => simp [winLoop]
  | cons line rest ih =>
    have hl1 : line = c1 := hall line (by simp)
    have hrest : ∀ l ∈ rest, l = c1 := fun l hl => hall l (List.mem_cons_of_mem _ hl)
    simp [winLoop, hl1, ih hrest]

lemma winLoop_start_of_all {c1 c2 : List Bool} {L : List (List Bool)}
    (hall : ∀ l ∈ L, l = c1) (hne : L ≠ []) : winLoop c1 c2 0 L = 1 := by
  cases L with
  | nil => exact absurd rfl hne
  | cons line rest =>
    have hl1 : line = c1 := hall line (by simp)
    have hrest : ∀ l ∈ rest, l = c1 := fun l hl => hall l (List.mem_cons_of_mem _ hl)
    simp [winLoop, hl1, winLoop_one_of_all hrest]

/-! ### Binary strings and `isqrt` -/

lemma natBitsAux_eq_of_le : ∀ (f1 f2 x : ℕ), x ≤ f1 → x ≤ f2 →
    natBitsAux f1 x = natBitsAux f2 x := by
  intro f1
  induction f1 with
  | zero =>
    intro f2 x h1 _
    have : x = 0 := by omega
    subst this
    cases f2 <;> simp [natBitsAux]
  | succ g ih =>
    intro f2 x h1 h2
    cases f2 with
    | zero =>
      have : x = 0 := by omega
      subst this
      simp [natBitsAux]
    | succ g2 =>
      by_cases hx : x = 0
      · subst hx; simp [natBitsAux]
      · have hdiv : x / 2 < x := Nat.div_lt_self (by omega) (by omega)
        simp only [natBitsAux, if_neg hx]
        congr 1
        exact ih g2 (x / 2) (by omega) (by omega)

lemma natBits_unfold (x : ℕ) (hx : x ≠ 0) :
    natBits x = natBits (x / 2) ++ [decide (x % 2 = 1)] := by
  cases x with
  | zero => exact absurd rfl hx
  | succ k =>
    show natBitsAux (k + 1) (k + 1) = _
    simp only [natBitsAux, if_neg (Nat.succ_ne_zero k)]
    congr 1
    exact natBitsAux_eq_of_le k ((k + 1) / 2) ((k + 1) / 2) (by omega) (by omega)

lemma natBits_two_pow_sub_one : ∀ d : ℕ, natBits (2 ^ d - 1) = List.replicate d true := by
  intro d
  induction d with
  | zero => simp [natBits, natBitsAux]
  | succ e ih =>
    have hp : (2 : ℕ) ^ (e + 1) = 2 * 2 ^ e := by rw [pow_succ]; ring
    have hpos : (1 : ℕ) ≤ 2 ^ e := Nat.one_le_two_pow
    have hx : 2 ^ (e + 1) - 1 ≠ 0 := by omega
    rw [natBits_unfold _ hx]
    have hdiv : (2 ^ (e + 1) - 1) / 2 = 2 ^ e - 1 := by omega
    have hmod : (2 ^ (e + 1) - 1) % 2 = 1 := by omega
    rw [hdiv, hmod, ih]
    simp [List.replicate_succ']

lemma cond1_eq {d : ℕ} (hd : 1 ≤ d) : cond1Of d = List.replicate d false := by
  have : pyBin 0 = [false] := by simp [pyBin]
  rw [cond1Of, this, zfill]
  simp only [List.length_singleton]
  conv_rhs => rw [show d = (d - 1) + 1 by omega, List.replicate_succ']

lemma natBits_length_two_pow_sub_one (d : ℕ) :
    (natBits (2 ^ d - 1)).length = d := by
  rw [natBits_two_pow_sub_one]; simp

lemma cond2_eq {d : ℕ} (hd : 1 ≤ d) : cond2Of d = List.replicate d true := by
  have hx : 2 ^ d - 1 ≠ 0 := by
    have : (2 : ℕ) ^ 1 ≤ 2 ^ d := Nat.pow_le_pow_right (by omega) hd
    omega
  rw [cond2Of, pyBin, if_neg hx, zfill, natBits_length_two_pow_sub_one,
    Nat.sub_self, List.replicate_zero, List.nil_append, natBits_two_pow_sub_one]

lemma cond_ne {d : ℕ} (hd : 1 ≤ d) : cond1Of d ≠ cond2Of d := by
  rw [cond1_eq hd, cond2_eq hd]
  cases d with
  | zero => omega
  | succ e => simp [List.replicate_succ]

lemma countP_range_lt (n k : ℕ) :
    (List.range n).countP (fun r => r < k) = min k n := by
  induction n with
  | zero => simp
  | succ m ih =>
    rw [List.range_succ, List.countP_append, ih]
    have hsing : (List.countP (fun r => decide (r < k)) [m]) = if m < k then 1 else 0 := by
      simp [List.countP_cons]
    rw [hsing]
    rcases Nat.lt_or_ge m k with h | h
    · rw [if_pos h]; omega
    · rw [if_neg (by omega)]; omega

lemma isqrt_mul_self (d : ℕ) : isqrt (d * d) = d := by
  rw [isqrt, List.countP_map]
  have hcong : ((List.range (d * d)).countP
      ((fun r => decide (r * r ≤ d * d)) ∘ (fun r => r + 1)))
      = (List.range (d * d)).countP (fun r => r < d) := by
    apply List.countP_congr
    intro r _
    simp only [Function.comp_apply, decide_eq_true_eq]
    constructor
    · intro hr
      have := Nat.mul_self_le_mul_self_iff.mp hr
      omega
    · intro hr
      exact Nat.mul_self_le_mul_self_iff.mpr (by omega)
  rw [hcong, countP_range_lt]
  have : d ≤ d * d := by nlinarith
  omega

lemma winCheck_sq (d : ℕ) (board : List Bool) :
    winCheck (d * d) board = winLoop (cond1Of d) (cond2Of d) 0 (linesOf d board) := by
  rw [winCheck, isqrt_mul_self]

/-! ### Norm preservation of the gate actions -/

lemma normSq_hscale : Complex.normSq hscale = 1 / 2 := by
  rw [hscale, Complex.normSq_ofReal, ← mul_inv, Real.mul_self_sqrt (by norm_num)]
  norm_num

lemma normSq_pair (a b : ℂ) :
    Complex.normSq ((a + b) * hscale) + Complex.normSq ((a - b) * hscale)
      = Complex.normSq a + Complex.normSq b := by
  rw [Complex.normSq_mul, Complex.normSq_mul, Complex.normSq_add, Complex.normSq_sub,
    normSq_hscale]
  ring

lemma stateNorm_applyX {n : ℕ} (k : Fin n) (v : QVec n) :
    stateNorm (applyX k v) = stateNorm v := by
  rw [stateNorm, stateNorm]
  exact Equiv.sum_comp ((flipFin_involutive k).toPerm) (fun j => Complex.normSq (v j))

/-- The permutation of basis indices effected by `CXGate c t`. -/
def cxFun {n : ℕ} (c t : Fin n) (i : Fin (2 ^ n)) : Fin (2 ^ n) :=
  if (i : ℕ).testBit c.val then flipFin t i else i

lemma applyCX_eq_comp {n : ℕ} (c t : Fin n) (v : QVec n) (i : Fin (2 ^ n)) :
    applyCX c t v i = v (cxFun c t i) := by
  rw [applyCX, cxFun, apply_ite v]

lemma cxFun_involutive {n : ℕ} {c t : Fin n} (hct : c.val ≠ t.val) :
    Function.Involutive (cxFun c t) := by
  intro i
  by_cases hb : (i : ℕ).testBit c.val
  · have h1 : cxFun c t i = flipFin t i := if_pos hb
    have h2 : (flipFin t i : ℕ).testBit c.val = (i : ℕ).testBit c.val :=
      testBit_flipFin_ne t i (fun h => hct h.symm)
    have h3 : cxFun c t (flipFin t i) = flipFin t (flipFin t i) := by
      rw [cxFun, h2, if_pos hb]
    rw [h1, h3, flipFin_involutive]
  · have h1 : cxFun c t i = i := if_neg hb
    rw [h1, h1]

lemma stateNorm_applyCX {n : ℕ} {c t : Fin n} (hct : c.val ≠ t.val) (v : QVec n) :
    stateNorm (applyCX c t v) = stateNorm v := by
  rw [stateNorm, stateNorm]
  have h2 := Equiv.sum_comp (Function.Involutive.toPerm _ (cxFun_involutive hct))
    (fun j => Complex.normSq (v j))
  simp only [Function.Involutive.coe_toPerm] at h2
  calc ∑ i, Complex.normSq (applyCX c t v i)
      = ∑ i, Complex.normSq (v (cxFun c t i)) := by
        simp only [applyCX_eq_comp]
    _ = ∑ i, Complex.normSq (v i) := h2

lemma stateNorm_applyH {n : ℕ} (k : Fin n) (v : QVec n) :
    stateNorm (applyH k v) = stateNorm v := by
  classical
  have key : ∀ (f : Fin (2 ^ n) → ℝ),
      ∑ i ∈ Finset.univ.filter (fun i : Fin (2 ^ n) => ¬ (i : ℕ).testBit k.val = false), f i
        = ∑ i ∈ Finset.univ.filter (fun i : Fin (2 ^ n) => (i : ℕ).testBit k.val = false),
            f (flipFin k i) := by
    intro f
    refine Finset.sum_bij' (fun a _ => flipFin k a) (fun a _ => flipFin k a) ?_ ?_ ?_ ?_ ?_
    · intro a ha
      simp only [Finset.mem_filter, Finset.mem_univ, true_and] at ha ⊢
      rw [testBit_flipFin_self]
      simp only [Bool.not_eq_false] at ha
      rw [ha]
      rfl
    · intro a ha
      simp only [Finset.mem_filter, Finset.mem_univ, true_and] at ha ⊢
      rw [testBit_flipFin_self, ha]
      simp
    · intro a _
      exact flipFin_involutive k a
    · intro a _
      exact flipFin_involutive k a
    · intro a _
      rw [flipFin_involutive k a]
  rw [stateNorm, stateNorm,
    ← Finset.sum_filter_add_sum_filter_not Finset.univ
      (fun i : Fin (2 ^ n) => (i : ℕ).testBit k.val = false)
      (fun i => Complex.normSq (applyH k v i)),
    ← Finset.sum_filter_add_sum_filter_not Finset.univ
      (fun i : Fin (2 ^ n) => (i : ℕ).testBit k.val = false)
      (fun i => Complex.normSq (v i)),
    key (fun i => Complex.normSq (applyH k v i)),
    key (fun i => Complex.normSq (v i)),
    ← Finset.sum_add_distrib, ← Finset.sum_add_distrib]
  apply Finset.sum_congr rfl
  intro i hi
  have hib : (i : ℕ).testBit k.val = false := (Finset.mem_filter.mp hi).2
  have hfb : ¬ ((flipFin k i : ℕ).testBit k.val = false) := by
    rw [testBit_flipFin_self, hib]
    simp
  rw [applyH, applyH, if_pos hib, if_neg hfb, flipFin_involutive k i]
  exact normSq_pair (v i) (v (flipFin k i))

/-! ### The move table feeds only valid gates -/

lemma mem_movesList {n : ℕ} {m : List ℕ × Gate} (hm : m ∈ movesList n) :
    (∃ q, q < n ∧ (m = ([q], Gate.H) ∨ m = ([q], Gate.X))) ∨
    (∃ c t, c < n ∧ t < n ∧ t ≠ c ∧ m = ([c, t], Gate.CX)) := by
  rw [movesList, List.mem_append] at hm
  rcases hm with h | h
  · left
    rw [List.mem_flatMap] at h
    obtain ⟨q, hq, hmem⟩ := h
    rw [List.mem_range] at hq
    refine ⟨q, hq, ?_⟩
    simpa using hmem
  · right
    rw [List.mem_map] at h
    obtain ⟨p, hp, rfl⟩ := h
    rw [permPairs, List.mem_flatMap] at hp
    obtain ⟨c, hc, hmem⟩ := hp
    rw [List.mem_range] at hc
    rw [List.mem_map] at hmem
    obtain ⟨t, ht, rfl⟩ := hmem
    rw [List.mem_filter, List.mem_range] at ht
    exact ⟨c, t, hc, ht.1, by simpa using ht.2, rfl⟩

lemma stateNorm_applyMove {n : ℕ} {m : List ℕ × Gate} (hm : m ∈ movesList n)
    (v : QVec n) : stateNorm (applyMove n m v) = stateNorm v := by
  rcases mem_movesList hm with ⟨q, hq, hHX⟩ | ⟨c, t, hc, ht, htc, rfl⟩
  · rcases hHX with rfl | rfl
    · rw [applyMove, dif_pos hq]
      exact stateNorm_applyH ⟨q, hq⟩ v
    · rw [applyMove, dif_pos hq]
      exact stateNorm_applyX ⟨q, hq⟩ v
  · rw [applyMove, dif_pos (And.intro hc ht)]
    exact stateNorm_applyCX (c := ⟨c, hc⟩) (t := ⟨t, ht⟩) (fun h => htc h.symm) v

lemma stateNorm_runMoves {n : ℕ} (ms : List (List ℕ × Gate))
    (hms : ∀ m ∈ ms, m ∈ movesList n) (v : QVec n) :
    stateNorm (runMoves n ms v) = stateNorm v := by
  induction ms generalizing v with
  | nil => rfl
  | cons m rest ih =>
    show stateNorm (runMoves n rest (applyMove n m v)) = stateNorm v
    rw [ih (fun x hx => hms x (List.mem_cons_of_mem _ hx)) (applyMove n m v),
      stateNorm_applyMove (hms m (by simp)) v]

lemma stateNorm_initState (n : ℕ) : stateNorm (initState n) = 1 := by
  have h1 : ∀ i : Fin (2 ^ n), Complex.normSq (initState n i)
      = if i = 0 then (1 : ℝ) else 0 := by
    intro i
    rw [initState]
    split_ifs <;> simp
  rw [stateNorm]
  simp only [h1]
  simp

/-! ### The statevector after `reset` -/

lemma resetAux {n : ℕ} : ∀ (m : ℕ), m ≤ n → ∀ i : Fin (2 ^ n),
    runMoves n ((List.range m).map (fun q => ([q], Gate.H))) (initState n) i
      = if (i : ℕ) < 2 ^ m then hscale ^ m else 0 := by
  intro m
  induction m with
  | zero =>
    intro _ i
    show initState n i = if (i : ℕ) < 2 ^ 0 then hscale ^ 0 else 0
    rw [initState, pow_zero, pow_zero]
    by_cases h : i = 0
    · subst h
      simp
    · rw [if_neg h, if_neg ?_]
      intro hlt
      apply h
      apply Fin.ext
      have hv : (i : ℕ) = 0 := by omega
      rw [hv]
      simp
  | succ m ih =>
    intro hm i
    have hmn : m < n := by omega
    have hrun : runMoves n ((List.range (m + 1)).map (fun q => ([q], Gate.H))) (initState n)
        = applyH ⟨m, hmn⟩
            (runMoves n ((List.range m).map (fun q => ([q], Gate.H))) (initState n)) := by
      rw [List.range_succ, List.map_append, runMoves, List.foldl_append]
      show List.foldl _ _ [([m], Gate.H)] = _
      rw [List.foldl_cons, List.foldl_nil, applyMove, dif_pos hmn]
      rfl
    rw [hrun]
    set w := runMoves n ((List.range m).map (fun q => ([q], Gate.H))) (initState n) with hw
    have ihw : ∀ j : Fin (2 ^ n), w j = if (j : ℕ) < 2 ^ m then hscale ^ m else 0 :=
      ih (by omega)
    have hflipval : (flipFin ⟨m, hmn⟩ i : ℕ) = (i : ℕ) ^^^ 2 ^ m := rfl
    have hpow : (2 : ℕ) ^ m < 2 ^ (m + 1) := Nat.pow_lt_pow_right one_lt_two (by omega)
    by_cases hb : (i : ℕ).testBit m = false
    · rw [applyH, if_pos hb]
      by_cases hlt : (i : ℕ) < 2 ^ m
      · have hflip_ge : ¬ ((flipFin ⟨m, hmn⟩ i : ℕ) < 2 ^ m) := by
          have : (flipFin ⟨m, hmn⟩ i : ℕ).testBit m = true := by
            rw [testBit_flipFin_self, hb]
            rfl
          have := Nat.testBit_implies_ge this
          omega
        rw [ihw i, ihw (flipFin ⟨m, hmn⟩ i), if_pos hlt, if_neg hflip_ge,
          if_pos (lt_trans hlt hpow), add_zero, pow_succ]
      · have hge2 : ¬ ((i : ℕ) < 2 ^ (m + 1)) := by
          intro h2
          rw [testBit_true_of_range (by omega) h2] at hb
          cases hb
        have hflip_ge : ¬ ((flipFin ⟨m, hmn⟩ i : ℕ) < 2 ^ m) := by
          have h2 := xor_two_pow_high (i := (i : ℕ)) (m := m) (by omega)
          rw [← hflipval] at h2
          omega
        rw [ihw i, ihw (flipFin ⟨m, hmn⟩ i), if_neg hlt, if_neg hflip_ge,
          if_neg hge2, add_zero, zero_mul]
    · rw [applyH, if_neg hb]
      rw [Bool.not_eq_false] at hb
      have hige : 2 ^ m ≤ (i : ℕ) := Nat.testBit_implies_ge hb
      by_cases hlt : (i : ℕ) < 2 ^ (m + 1)
      · have hflip_bit : (flipFin ⟨m, hmn⟩ i : ℕ).testBit m = false := by
          rw [testBit_flipFin_self, hb]
          rfl
        have hflip_lt2 : (flipFin ⟨m, hmn⟩ i : ℕ) < 2 ^ (m + 1) := by
          rw [hflipval]
          exact Nat.xor_lt_two_pow (by omega) hpow
        have hflip_lt : (flipFin ⟨m, hmn⟩ i : ℕ) < 2 ^ m :=
          lt_of_testBit_false hflip_lt2 hflip_bit
        rw [ihw i, ihw (flipFin ⟨m, hmn⟩ i), if_pos hflip_lt,
          if_neg (show ¬ ((i : ℕ) < 2 ^ m) by omega), if_pos hlt, sub_zero, pow_succ]
      · have hflip_ge : ¬ ((flipFin ⟨m, hmn⟩ i : ℕ) < 2 ^ m) := by
          have h2 := xor_two_pow_high (i := (i : ℕ)) (m := m) (by omega)
          rw [← hflipval] at h2
          omega
        rw [ihw i, ihw (flipFin ⟨m, hmn⟩ i), if_neg hflip_ge,
          if_neg (show ¬ ((i : ℕ) < 2 ^ m) by omega), if_neg hlt, sub_zero, zero_mul]

lemma resetState_eq (n : ℕ) (i : Fin (2 ^ n)) : resetState n i = hscale ^ n := by
  rw [resetState, resetAux n le_rfl i, if_pos i.isLt]

lemma stateNorm_resetState (n : ℕ) : stateNorm (resetState n) = 1 := by
  rw [stateNorm]
  simp only [resetState_eq]
  rw [Finset.sum_const, Finset.card_univ, Fintype.card_fin, map_pow, normSq_hscale,
    nsmul_eq_mul, Nat.cast_pow, Nat.cast_ofNat]
  rw [← mul_pow]
  norm_num

lemma getD_replicate_of_lt {α : Type} (a b : α) {n j : ℕ} (h : j < n) :
    (List.replicate n a).getD j b = a := by
  induction n generalizing j with
  | zero => omega
  | succ m ih =>
    cases j with
    | zero => simp [List.replicate_succ]
    | succ k =>
      rw [List.replicate_succ, List.getD_cons_succ]
      exact ih (by omega)

lemma getD_replicate_false (n j : ℕ) :
    (List.replicate n false).getD j false = false := by
  induction n generalizing j with
  | zero => simp [List.getD]
  | succ m ih =>
    cases j with
    | zero => simp [List.replicate_succ]
    | succ k =>
      rw [List.replicate_succ, List.getD_cons_succ]
      exact ih k

/-! ### Rounding of the reset amplitudes (`np.around(..., decimals=2)`) -/

lemma sqrt_two_sq : Real.sqrt 2 * Real.sqrt 2 = 2 := Real.mul_self_sqrt (by norm_num)

lemma sqrt_two_pos : (0 : ℝ) < Real.sqrt 2 := Real.sqrt_pos.mpr (by norm_num)

lemma round_inv_sqrt2_mul_100 : round ((Real.sqrt 2)⁻¹ * 100) = 71 := by
  have hs := sqrt_two_pos
  have hss := sqrt_two_sq
  have h1 : (1.414 : ℝ) < Real.sqrt 2 := by nlinarith [hss, hs]
  have h2 : Real.sqrt 2 < (1.415 : ℝ) := by nlinarith [hss, hs]
  have hsinv : (Real.sqrt 2)⁻¹ = Real.sqrt 2 / 2 := by
    field_simp
  rw [hsinv, round_eq, Int.floor_eq_iff]
  constructor
  · push_cast
    nlinarith [h1]
  · push_cast
    nlinarith [h2]

lemma roundC_hscale : roundC hscale = ((71 / 100 : ℝ) : ℂ) := by
  rw [hscale, roundC]
  simp only [Complex.ofReal_re, Complex.ofReal_im, zero_mul, round_zero]
  rw [round_inv_sqrt2_mul_100]
  push_cast
  ring

/-! ### Claim theorems -/

/-- C1 (counterexample): for grid size 1 the freshly constructed engine has an
empty circuit, and its statevector's amplitude at index 1 does not have the
equal-superposition magnitude `1/√2`: the register is NOT in superposition at
creation. -/
theorem init_not_superposed :
    (qtttInit 1).circuit = [] ∧
    Complex.abs (statevecOf (qtttInit 1) ⟨1, by decide⟩) ≠ (Real.sqrt 2)⁻¹ := by
  refine ⟨rfl, ?_⟩
  have h1 : statevecOf (qtttInit 1) ⟨1, by decide⟩ = 0 := by
    show initState (qtttInit 1).qnum ⟨1, by decide⟩ = 0
    rw [initState, if_neg (by decide)]
  rw [h1, map_zero]
  intro h
  have hpos : (0 : ℝ) < (Real.sqrt 2)⁻¹ := by positivity
  exact absurd h.symm (ne_of_gt hpos)

/-- C1 (amended): at construction the circuit is empty, so the register is
the all-zero basis state (amplitude 1 at index 0, 0 elsewhere); the canonical
equal superposition — every amplitude equal to `(1/√2)^n`, hence of magnitude
`1/√(2^n)` with fixed phase — holds only after `reset`. -/
theorem creation_basis_reset_uniform (n : ℕ) (i : Fin (2 ^ n)) :
    initState n i = (if i = 0 then 1 else 0) ∧
    resetState n i = hscale ^ n ∧
    Complex.abs (resetState n i) = (Real.sqrt (2 ^ n))⁻¹ := by
  refine ⟨rfl, resetState_eq n i, ?_⟩
  have hpow : ∀ m : ℕ, Real.sqrt (2 ^ m) = (Real.sqrt 2) ^ m := by
    intro m
    induction m with
    | zero => simp
    | succ k ih =>
      rw [pow_succ, Real.sqrt_mul (by positivity), ih, pow_succ]
  rw [resetState_eq, hscale, ← Complex.ofReal_pow, Complex.abs_ofReal,
    abs_of_nonneg (by positivity), hpow, inv_pow]

/-- C2 (counterexample): already for the freshly reset 1-qubit register with
no further moves, the vector returned by `_get_statevec` (amplitudes rounded
to two decimals, here `0.71`) has a squared-magnitude sum of `1.0082`,
which is NOT within `1e-6` of `1.0`. -/
theorem observed_norm_gap :
    1 / 1000000 < |stateNorm (fun i => roundC (resetState 1 i)) - 1| := by
  have hval : ∀ i : Fin (2 ^ 1), roundC (resetState 1 i) = ((71 / 100 : ℝ) : ℂ) := by
    intro i
    rw [resetState_eq, pow_one, roundC_hscale]
  rw [stateNorm]
  simp only [hval]
  rw [show (Finset.univ : Finset (Fin (2 ^ 1))).sum
        (fun _ => Complex.normSq ((71 / 100 : ℝ) : ℂ))
      = ∑ _i : Fin 2, Complex.normSq ((71 / 100 : ℝ) : ℂ) from rfl,
    Fin.sum_univ_two, Complex.normSq_ofReal]
  rw [abs_of_pos (by norm_num)]
  norm_num

/-- C2 (amended): the exact (unrounded) statevector does satisfy unitarity:
for every sequence of moves drawn from the move table, applied from the reset
state, the sum of squared amplitude magnitudes stays within `1e-6` of `1`
(it equals `1` exactly). -/
theorem unitarity_of_table_moves (n : ℕ) (ms : List (List ℕ × Gate))
    (hms : ∀ m ∈ ms, m ∈ movesList n) :
    |stateNorm (runMoves n ms (resetState n)) - 1| ≤ 1 / 1000000 := by
  rw [stateNorm_runMoves ms hms (resetState n), stateNorm_resetState]
  norm_num

theorem unitarity_of_table_moves_witness :
    (∀ m ∈ [([0], Gate.H)], m ∈ movesList 1) ∧
    |stateNorm (runMoves 1 [([0], Gate.H)] (resetState 1)) - 1| ≤ 1 / 1000000 :=
  ⟨by decide, unitarity_of_table_moves 1 [([0], Gate.H)] (by decide)⟩

/-- C3: whenever the scanned lines contain both the all-zero pattern and the
all-one pattern, `_win_check` returns the draw flag 0, never a win. -/
theorem both_lines_draw (qnum : ℕ) (board : List Bool)
    (h1 : cond1Of (isqrt qnum) ∈ linesOf (isqrt qnum) board)
    (h2 : cond2Of (isqrt qnum) ∈ linesOf (isqrt qnum) board) :
    winCheck qnum board = 0 := by
  have hd1 : 1 ≤ isqrt qnum := by
    by_contra hc
    push_neg at hc
    have hd0 : isqrt qnum = 0 := by omega
    rw [hd0] at h1
    simp [linesOf, rowsOf, colsOf, diag1Of, diag2Of, cond1Of, pyBin, zfill] at h1
  exact winLoop_zero_of_both (cond_ne hd1) h1 h2

theorem both_lines_draw_witness :
    (cond1Of (isqrt 4) ∈ linesOf (isqrt 4) (boardOf 4 3)) ∧
    (cond2Of (isqrt 4) ∈ linesOf (isqrt 4) (boardOf 4 3)) ∧
    winCheck 4 (boardOf 4 3) = 0 :=
  ⟨by decide, by decide, both_lines_draw 4 (boardOf 4 3) (by decide) (by decide)⟩

/-- C4 (counterexample): `move` with unknown action 5 on the grid-1 engine
raises, but the error state has `status_id` log `[5]` while the pre-state log
was `[]`: the engine state is NOT left completely unchanged. -/
theorem move_unknown_mutates_log :
    move (qtttInit 1) 5 = Except.error { circuit := [], statusId := [5], qnum := 1 } ∧
    (qtttInit 1).statusId ≠ [5] :=
  ⟨rfl, by decide⟩

/-- C4 (amended): on an unknown move identifier the error is raised
synchronously and the circuit (hence the register) is unchanged, but the
`status_id` move log has already been extended with the failing action. -/
theorem move_unknown_partial (st : EngineState) (action : ℕ)
    (h : (movesList st.qnum).get? action = none) :
    move st action = Except.error { st with statusId := st.statusId ++ [action] } := by
  simp only [move, h]

theorem move_unknown_partial_witness :
    ((movesList (qtttInit 1).qnum).get? 5 = none) ∧
    move (qtttInit 1) 5
      = Except.error { qtttInit 1 with statusId := (qtttInit 1).statusId ++ [5] } :=
  ⟨by decide, move_unknown_partial (qtttInit 1) 5 (by decide)⟩

/-- C5 (counterexample): constructing with grid size 0 or -2 does not fail:
it returns a register state (0-qubit resp. 4-qubit), so no `InvalidDimension`
error is raised for non-positive sizes. -/
theorem init_nonpositive_constructs :
    qtttInit 0 = { circuit := [], statusId := [], qnum := 0 } ∧
    qtttInit (-2) = { circuit := [], statusId := [], qnum := 4 } :=
  ⟨rfl, rfl⟩

/-- C5 (amended): `__init__` performs no validation and cannot fail: for every
integer grid size `g` it returns a fresh engine with `qnum = g²` (negative
sizes square to positive, 0 yields an empty register). -/
theorem init_total_qnum (g : ℤ) :
    (qtttInit g).qnum = g.natAbs * g.natAbs ∧ (qtttInit g).circuit = [] ∧
    (qtttInit g).statusId = [] := by
  refine ⟨?_, rfl, rfl⟩
  show (g * g).toNat = g.natAbs * g.natAbs
  rw [← Int.natAbs_mul_self, Int.toNat_natCast]

/-- C6: for dimension `d`, every classical index below `2^(d*d)` belongs to
exactly one of the three outcome classes 1 (player one), 2 (player two),
0 (draw) of the endings lookup table. -/
theorem outcomes_partition (d x : ℕ) (hx : x < 2 ^ (d * d)) :
    ∃! w : ℕ, (w = 1 ∨ w = 2 ∨ w = 0) ∧ x ∈ endingsList (d * d) w := by
  have hmem : ∀ w, x ∈ endingsList (d * d) w ↔
      winCheck (d * d) (boardOf (d * d) x) = w := by
    intro w
    rw [endingsList, List.mem_filter, List.mem_range]
    simp [hx]
  have hrange := winLoop_mem (cond1Of (isqrt (d * d))) (cond2Of (isqrt (d * d)))
    (linesOf (isqrt (d * d)) (boardOf (d * d) x)) 0 (by tauto)
  have hrange' : winCheck (d * d) (boardOf (d * d) x) = 0 ∨
      winCheck (d * d) (boardOf (d * d) x) = 1 ∨
      winCheck (d * d) (boardOf (d * d) x) = 2 := hrange
  refine ⟨winCheck (d * d) (boardOf (d * d) x), ⟨by tauto, (hmem _).mpr rfl⟩, ?_⟩
  intro w hw
  exact ((hmem w).mp hw.2).symm

theorem outcomes_partition_witness :
    (0 < 2 ^ (1 * 1)) ∧ ∃! w : ℕ, (w = 1 ∨ w = 2 ∨ w = 0) ∧ 0 ∈ endingsList (1 * 1) w :=
  ⟨by norm_num, outcomes_partition 1 0 (by norm_num)⟩

/-- C7: for `n` qubits the move table has exactly `2n + n(n-1)` entries, and
its identifiers (the dictionary keys) are pairwise distinct. -/
theorem moves_table_size (n : ℕ) :
    (movesDict n).length = 2 * n + n * (n - 1) ∧
    ((movesDict n).map Prod.fst).Nodup := by
  constructor
  · rw [movesDict, List.enum_length, movesList, List.length_append, List.length_flatMap]
    have h1 : List.map (List.length ∘ (fun q => [([q], Gate.H), ([q], Gate.X)]))
        (List.range n) = List.replicate n 2 := by
      rw [show (List.length ∘ (fun q => [([q], Gate.H), ([q], Gate.X)]))
          = (fun _ : ℕ => 2) from rfl, List.map_const', List.length_range]
    rw [h1, List.sum_replicate, smul_eq_mul, List.length_map, permPairs,
      List.length_flatMap]
    have h2 : ∀ c ∈ List.range n,
        (List.length ∘ (fun c => ((List.range n).filter (fun t => t ≠ c)).map
          (fun t => ((c, t) : ℕ × ℕ)))) c = n - 1 := by
      intro c hc
      simp only [Function.comp_apply, List.length_map]
      have hfe : (fun t : ℕ => decide (t ≠ c)) = (fun t : ℕ => t != c) := by
        funext t
        by_cases h : t = c <;> simp [h]
      rw [show ((List.range n).filter (fun t => t ≠ c))
          = ((List.range n).filter (fun t : ℕ => t != c)) from by rw [← hfe],
        ← List.Nodup.erase_eq_filter (List.nodup_range n) c,
        List.length_erase_of_mem (by rwa [List.mem_range] at hc ⊢),
        List.length_range]
    rw [List.map_congr_left h2, List.map_const', List.length_range,
      List.sum_replicate, smul_eq_mul]
    ring
  · rw [movesDict, List.enum_map_fst]
    exact List.nodup_range _

/-- C8: applying `XGate` on the same qubit twice in succession (two successive
move-table X moves on qubit `q`) restores the amplitude vector exactly. -/
theorem pauliX_twice_id (n q : ℕ) (hq : q < n) (v : QVec n) :
    runMoves n [([q], Gate.X), ([q], Gate.X)] v = v := by
  show applyMove n ([q], Gate.X) (applyMove n ([q], Gate.X) v) = v
  simp only [applyMove, dif_pos hq]
  funext i
  show v (flipFin ⟨q, hq⟩ (flipFin ⟨q, hq⟩ i)) = v i
  rw [flipFin_involutive]

theorem pauliX_twice_id_witness :
    (0 < 1) ∧ runMoves 1 [([0], Gate.X), ([0], Gate.X)] (initState 1) = initState 1 :=
  ⟨by norm_num, pauliX_twice_id 1 0 (by norm_num) (initState 1)⟩

/-- C9: for dimension 2, the classical index 1 (board string `0001`, top row
all zero) is classified as a win for player 1 (the zero-player), and indeed
appears in the player-1 bucket of the endings lookup table. -/
theorem top_row_zero_wins : winCheck 4 (boardOf 4 1) = 1 ∧ 1 ∈ endingsList 4 1 := by
  constructor <;> decide

/-- C10: for every dimension `d ≥ 1`, classical index 0 (every cell reads 0)
is classified as a win for player 1 (the zero-player), never as a draw. -/
theorem all_zero_board_wins (d : ℕ) (hd : 1 ≤ d) :
    winCheck (d * d) (boardOf (d * d) 0) = 1 := by
  have hdd : 1 ≤ d * d := Nat.one_le_iff_ne_zero.mpr (by positivity)
  have hboard : boardOf (d * d) 0 = List.replicate (d * d) false := by
    rw [boardOf, pyBin, if_pos rfl, zfill, List.length_singleton]
    conv_rhs => rw [show d * d = (d * d - 1) + 1 by omega, List.replicate_succ']
  have hrows : rowsOf d (List.replicate (d * d) false)
      = List.replicate d (List.replicate d false) := by
    rw [rowsOf]
    have h1 : ∀ i ∈ List.range d,
        (((List.replicate (d * d) false).drop (i * d)).take d)
          = List.replicate d false := by
      intro i hi
      rw [List.mem_range] at hi
      rw [List.drop_replicate, List.take_replicate]
      have h3 : i * d + d ≤ d * d := by nlinarith
      congr 1
      omega
    rw [List.map_congr_left h1, List.map_const', List.length_range]
  have hcols : colsOf d (List.replicate (d * d) false)
      = List.replicate d (List.replicate d false) := by
    rw [colsOf]
    have h1 : ∀ j ∈ List.range d,
        (rowsOf d (List.replicate (d * d) false)).map (fun r => r.getD j false)
          = List.replicate d false := by
      intro j _
      rw [hrows, List.map_replicate, getD_replicate_false]
    rw [List.map_congr_left h1, List.map_const', List.length_range]
  have hdiag1 : diag1Of d (List.replicate (d * d) false) = List.replicate d false := by
    rw [diag1Of]
    have h1 : ∀ i ∈ List.range d,
        ((rowsOf d (List.replicate (d * d) false)).getD i []).getD i false = false := by
      intro i hi
      rw [List.mem_range] at hi
      rw [hrows, getD_replicate_of_lt _ _ hi, getD_replicate_false]
    rw [List.map_congr_left h1, List.map_const', List.length_range]
  have hdiag2 : diag2Of d (List.replicate (d * d) false) = List.replicate d false := by
    rw [diag2Of]
    have h1 : ∀ i ∈ List.range d,
        ((rowsOf d (List.replicate (d * d) false)).getD i []).getD (d - i - 1) false
          = false := by
      intro i hi
      rw [List.mem_range] at hi
      rw [hrows, getD_replicate_of_lt _ _ hi, getD_replicate_false]
    rw [List.map_congr_left h1, List.map_const', List.length_range]
  have hall : ∀ l ∈ linesOf d (List.replicate (d * d) false), l = cond1Of d := by
    intro l hl
    rw [linesOf, hrows, hcols, hdiag1, hdiag2] at hl
    rw [cond1_eq hd]
    simp only [List.mem_append, List.mem_replicate, List.mem_cons,
      List.not_mem_nil, or_false] at hl
    tauto
  have hnonempty : linesOf d (List.replicate (d * d) false) ≠ [] := by
    rw [linesOf]
    simp
  rw [winCheck_sq, hboard]
  exact winLoop_start_of_all hall hnonempty

theorem all_zero_board_wins_witness :
    (1 ≤ 2) ∧ winCheck (2 * 2) (boardOf (2 * 2) 0) = 1 :=
  ⟨by norm_num, all_zero_board_wins 2 (by norm_num)⟩

end QTTT
